import Mathlib

/-! Shallow embedding of the PDF-preprocessing pipeline
(`preprocess.py`): the chunking loop, the page-offset map, the
character-to-page lookup, the per-chunk record builder and the
embedding attachment step, together with theorems about them. -/

/-- `step = max(1, chunk_size - overlap)`, computed once before the chunking loop. -/
def stepOf (chunk_size : Nat) (overlap : Int) : Nat :=
  (max 1 ((chunk_size : Int) - overlap)).toNat

/-- The `while start < n` loop of `chunk_text`, with explicit fuel: each
iteration appends `text[start : start + chunk_size]` (Python slices clamp at
the end of the string) and advances `start` by `step`.  `chunk_text` supplies
fuel `text.length`, which the loop never exhausts when `0 < step`. -/
def chunkLoop (text : List Char) (chunk_size step : Nat) : Nat → Nat → List (List Char)
  | _, 0 => []
  | start, fuel + 1 =>
    if start < text.length then
      (text.drop start).take chunk_size :: chunkLoop text chunk_size step (start + step) fuel
    else []

/-- `chunk_text(text, chunk_size, overlap)`. -/
def chunk_text (text : List Char) (chunk_size : Nat) (overlap : Int) : List (List Char) :=
  chunkLoop text chunk_size (stepOf chunk_size overlap) 0 text.length

/-- The span `[start, min(n, start + chunk_size))` of each window generated by
the same loop schedule as `chunkLoop` (a derived view of the chunk boundaries). -/
def spanLoop (n chunk_size step : Nat) : Nat → Nat → List (Nat × Nat)
  | _, 0 => []
  | start, fuel + 1 =>
    if start < n then
      (start, min n (start + chunk_size)) :: spanLoop n chunk_size step (start + step) fuel
    else []

/-- The character spans of the chunks of a text of length `n`. -/
def chunk_spans (n chunk_size : Nat) (overlap : Int) : List (Nat × Nat) :=
  spanLoop n chunk_size (stepOf chunk_size overlap) 0 n

/-- `CHUNK_SIZE = 1200`. -/
def CHUNK_SIZE : Nat := 1200

/-- `CHUNK_OVERLAP = 200`. -/
def CHUNK_OVERLAP : Int := 200

/-- The page list produced by `read_pdf_text`: pages are numbered `i + 1` in
enumeration order, each paired with its extracted text. -/
def read_pdf_pages : List (List Char) → Nat → List (Nat × List Char)
  | [], _ => []
  | t :: rest, i => (i + 1, t) :: read_pdf_pages rest (i + 1)

/-- `page_map.append((pno, len("".join(full_text))))`: each page paired with
the cumulative length of the page texts concatenated so far, with no
separator between pages. -/
def build_page_map : List (Nat × List Char) → Nat → List (Nat × Nat)
  | [], _ => []
  | (pno, ptxt) :: rest, acc =>
    (pno, acc + ptxt.length) :: build_page_map rest (acc + ptxt.length)

/-- Python's `sep.join(parts)`. -/
def join_sep (sep : List Char) : List (List Char) → List Char
  | [] => []
  | [t] => t
  | t :: rest => t ++ sep ++ join_sep sep rest

/-- `np.cumsum([0] + [len(c) for c in chunks])` starting from `acc`: the
accumulator first, then a running total after each chunk. -/
def cum_lens_from (acc : Nat) : List (List Char) → List Nat
  | [] => [acc]
  | c :: rest => acc :: cum_lens_from (acc + c.length) rest

/-- `cum_lens = np.cumsum([0] + [len(c) for c in chunks])`. -/
def cum_lens (chunks : List (List Char)) : List Nat :=
  cum_lens_from 0 chunks

/-- The `for pno, upto in page_map: if pos <= upto: return pno` loop of
`find_page`; `none` means the loop fell through without returning. -/
def find_page_loop : List (Nat × Nat) → Nat → Option Nat
  | [], _ => none
  | (pno, upto) :: rest, pos => if pos ≤ upto then some pno else find_page_loop rest pos

/-- `find_page(pos)`: the first page whose cumulative offset reaches `pos`,
else `page_map[-1][0]`; `none` models the IndexError on an empty map. -/
def find_page (page_map : List (Nat × Nat)) (pos : Nat) : Option Nat :=
  match find_page_loop page_map pos with
  | some p => some p
  | none => (page_map.getLast?).map Prod.fst

/-- `approx_pages(start_idx, end_idx)`: looks up `cum_lens[start_idx]` and
`cum_lens[end_idx + 1]` (or `cum_lens[-1]` when `end_idx + 1` is out of range)
in the page map; `none` models the IndexErrors of the Python code. -/
def approx_pages (cl : List Nat) (page_map : List (Nat × Nat))
    (start_idx end_idx : Nat) : Option (Nat × Nat) :=
  match cl.get? start_idx,
        (if end_idx + 1 < cl.length then cl.get? (end_idx + 1) else cl.getLast?) with
  | some start_char, some end_char =>
    match find_page page_map start_char, find_page page_map end_char with
    | some ps, some pe => some (ps, pe)
    | _, _ => none
  | _, _ => none

/-- `pdf.stem.replace("_", " ")` (character-wise, since the pattern is a
single character). -/
def book_name_of_stem (stem : String) : String :=
  String.mk (stem.data.map (fun c => if c = '_' then ' ' else c))

/-- One output record, before its embedding is attached. -/
structure Record where
  id : String
  book : String
  chunk_id : Nat
  text : List Char
  pages : Nat × Nat
  source : String
  deriving DecidableEq

/-- The record built for chunk `i` by the `for i, ch in enumerate(chunks)` loop. -/
def build_record (book_name pdf_name : String) (chunks : List (List Char))
    (cl : List Nat) (page_map : List (Nat × Nat)) (i : Nat) : Option Record :=
  match approx_pages cl page_map i i, chunks.get? i with
  | some (ps, pe), some ch =>
    some { id := book_name ++ "__chunk_" ++ toString i
         , book := book_name
         , chunk_id := i
         , text := ch
         , pages := (ps, pe)
         , source := pdf_name ++ "#pp." ++ toString ps ++ "-" ++ toString pe }
  | _, _ => none

/-- One record per chunk index, in order; `none` if any lookup fails. -/
def build_records_loop (book_name pdf_name : String) (chunks : List (List Char))
    (cl : List Nat) (page_map : List (Nat × Nat)) : List Nat → Option (List Record)
  | [] => some []
  | i :: rest =>
    match build_record book_name pdf_name chunks cl page_map i,
          build_records_loop book_name pdf_name chunks cl page_map rest with
    | some r, some rs => some (r :: rs)
    | _, _ => none

/-- The per-document body of the `__main__` loop: book name from the filename
stem, page map, `"\n\n"`-joined full text, chunks, cumulative chunk lengths,
then one record per chunk.  A document yielding no pages is skipped and
contributes no records. -/
def process_document (stem pdf_name : String) (texts : List (List Char))
    (chunk_size : Nat) (overlap : Int) : Option (List Record) :=
  let pages := read_pdf_pages texts 0
  if pages.isEmpty then some []
  else
    let book_name := book_name_of_stem stem
    let page_map := build_page_map pages 0
    let combined := join_sep ['\n', '\n'] (pages.map Prod.snd)
    let chunks := chunk_text combined chunk_size overlap
    let cl := cum_lens chunks
    build_records_loop book_name pdf_name chunks cl page_map (List.range chunks.length)

/-- `for i, rec in enumerate(records): rec["embedding"] = embeddings[i]`:
pairs the record at index `i` with the vector at index `i`; `none` models the
uncaught IndexError raised when the vectors run out before the records do. -/
def attach_embeddings_aux {α β : Type} (embs : List β) : List α → Nat → Option (List (α × β))
  | [], _ => some []
  | r :: rest, i =>
    match embs.get? i with
    | some e => (attach_embeddings_aux embs rest (i + 1)).map (fun l => (r, e) :: l)
    | none => none

/-- The embedding attachment step run once over all accumulated records. -/
def attach_embeddings {α β : Type} (records : List α) (embs : List β) :
    Option (List (α × β)) :=
  attach_embeddings_aux embs records 0

theorem stepOf_pos (cs : Nat) (ov : Int) : 0 < stepOf cs ov := by
  unfold stepOf
  have h := le_max_left 1 ((cs : Int) - ov)
  omega

theorem spanLoop_get? (n cs step : Nat) :
    ∀ (i fuel start : Nat), 0 < step → n - start ≤ fuel →
      (spanLoop n cs step start fuel).get? i =
        if start + i * step < n then
          some (start + i * step, min n (start + i * step + cs))
        else none := by
  intro i
  induction i with
  | zero =>
    intro fuel start hstep hf
    cases fuel with
    | zero =>
      have hn : ¬ start < n := by omega
      simp [spanLoop, hn]
    | succ f =>
      by_cases h : start < n
      · simp [spanLoop, h]
      · simp [spanLoop, h]
  | succ j ih =>
    intro fuel start hstep hf
    cases fuel with
    | zero =>
      have h1 : start ≤ start + (j + 1) * step := Nat.le_add_right _ _
      have hn : ¬ start + (j + 1) * step < n := by omega
      simp [spanLoop, hn]
    | succ f =>
      by_cases h : start < n
      · have hf2 : n - (start + step) ≤ f := by omega
        have hz := ih f (start + step) hstep hf2
        have he : start + step + j * step = start + (j + 1) * step := by ring
        rw [he] at hz
        simpa [spanLoop, h] using hz
      · have h1 : start ≤ start + (j + 1) * step := Nat.le_add_right _ _
        have hn : ¬ start + (j + 1) * step < n := by omega
        simp [spanLoop, h, hn]

theorem chunkLoop_get? (text : List Char) (cs step : Nat) :
    ∀ (i fuel start : Nat), 0 < step → text.length - start ≤ fuel →
      (chunkLoop text cs step start fuel).get? i =
        if start + i * step < text.length then
          some ((text.drop (start + i * step)).take cs)
        else none := by
  intro i
  induction i with
  | zero =>
    intro fuel start hstep hf
    cases fuel with
    | zero =>
      have hn : ¬ start < text.length := by omega
      simp [chunkLoop, hn]
    | succ f =>
      by_cases h : start < text.length
      · simp [chunkLoop, h]
      · simp [chunkLoop, h]
  | succ j ih =>
    intro fuel start hstep hf
    cases fuel with
    | zero =>
      have h1 : start ≤ start + (j + 1) * step := Nat.le_add_right _ _
      have hn : ¬ start + (j + 1) * step < text.length := by omega
      simp [chunkLoop, hn]
    | succ f =>
      by_cases h : start < text.length
      · have hf2 : text.length - (start + step) ≤ f := by omega
        have hz := ih f (start + step) hstep hf2
        have he : start + step + j * step = start + (j + 1) * step := by ring
        rw [he] at hz
        simpa [chunkLoop, h] using hz
      · have h1 : start ≤ start + (j + 1) * step := Nat.le_add_right _ _
        have hn : ¬ start + (j + 1) * step < text.length := by omega
        simp [chunkLoop, h, hn]

theorem spanLoop_length (n cs step : Nat) (hstep : 0 < step) :
    ∀ (fuel start : Nat), n - start ≤ fuel →
      (spanLoop n cs step start fuel).length = (n - start + step - 1) / step := by
  intro fuel
  induction fuel with
  | zero =>
    intro start hf
    have h0 : n - start = 0 := by omega
    simp [spanLoop, h0, Nat.div_eq_of_lt (by omega : step - 1 < step)]
  | succ f ih =>
    intro start hf
    by_cases h : start < n
    · have hf2 : n - (start + step) ≤ f := by omega
      have hz := ih (start + step) hf2
      simp only [spanLoop, if_pos h, List.length_cons, hz]
      rcases le_or_lt step (n - start) with hl | hl
      · have e1 : n - (start + step) + step - 1 = (n - start - 1) := by omega
        have e2 : n - start + step - 1 = (n - start - 1) + step := by omega
        rw [e1, e2, Nat.add_div_right _ hstep]
      · have e1 : n - (start + step) = 0 := by omega
        have e2 : n - start + step - 1 = (n - start - 1) + step := by omega
        rw [e1, e2, Nat.add_div_right _ hstep, Nat.zero_add,
          Nat.div_eq_of_lt (by omega : step - 1 < step),
          Nat.div_eq_of_lt (by omega : n - start - 1 < step)]
    · have h0 : n - start = 0 := by omega
      simp [spanLoop, h, h0, Nat.div_eq_of_lt (by omega : step - 1 < step)]

theorem chunkLoop_length (text : List Char) (cs step : Nat) (hstep : 0 < step) :
    ∀ (fuel start : Nat), text.length - start ≤ fuel →
      (chunkLoop text cs step start fuel).length =
        (text.length - start + step - 1) / step := by
  intro fuel
  induction fuel with
  | zero =>
    intro start hf
    have h0 : text.length - start = 0 := by omega
    simp [chunkLoop, h0, Nat.div_eq_of_lt (by omega : step - 1 < step)]
  | succ f ih =>
    intro start hf
    by_cases h : start < text.length
    · have hf2 : text.length - (start + step) ≤ f := by omega
      have hz := ih (start + step) hf2
      simp only [chunkLoop, if_pos h, List.length_cons, hz]
      rcases le_or_lt step (text.length - start) with hl | hl
      · have e1 : text.length - (start + step) + step - 1 = (text.length - start - 1) := by omega
        have e2 : text.length - start + step - 1 = (text.length - start - 1) + step := by omega
        rw [e1, e2, Nat.add_div_right _ hstep]
      · have e1 : text.length - (start + step) = 0 := by omega
        have e2 : text.length - start + step - 1 = (text.length - start - 1) + step := by omega
        rw [e1, e2, Nat.add_div_right _ hstep, Nat.zero_add,
          Nat.div_eq_of_lt (by omega : step - 1 < step),
          Nat.div_eq_of_lt (by omega : text.length - start - 1 < step)]
    · have h0 : text.length - start = 0 := by omega
      simp [chunkLoop, h, h0, Nat.div_eq_of_lt (by omega : step - 1 < step)]

theorem chunk_spans_get? (n cs : Nat) (ov : Int) (i : Nat) :
    (chunk_spans n cs ov).get? i =
      if i * stepOf cs ov < n then
        some (i * stepOf cs ov, min n (i * stepOf cs ov + cs))
      else none := by
  have hz := spanLoop_get? n cs (stepOf cs ov) i n 0 (stepOf_pos cs ov) (by omega)
  simpa using hz

theorem chunk_text_get? (text : List Char) (cs : Nat) (ov : Int) (i : Nat) :
    (chunk_text text cs ov).get? i =
      if i * stepOf cs ov < text.length then
        some ((text.drop (i * stepOf cs ov)).take cs)
      else none := by
  have hz := chunkLoop_get? text cs (stepOf cs ov) i text.length 0 (stepOf_pos cs ov) (by omega)
  simpa using hz

theorem chunk_text_length_eq (text : List Char) (cs : Nat) (ov : Int) :
    (chunk_text text cs ov).length =
      (text.length + stepOf cs ov - 1) / stepOf cs ov := by
  have hz := chunkLoop_length text cs (stepOf cs ov) (stepOf_pos cs ov) text.length 0 (by omega)
  simpa using hz

theorem chunkLoop_fuel_free (text : List Char) (cs step : Nat) (hstep : 0 < step)
    (fuel fuel' start : Nat) (h1 : text.length - start ≤ fuel)
    (h2 : text.length - start ≤ fuel') :
    chunkLoop text cs step start fuel = chunkLoop text cs step start fuel' := by
  rw [List.ext_get?_iff]
  intro i
  rw [chunkLoop_get? text cs step i fuel start hstep h1,
    chunkLoop_get? text cs step i fuel' start hstep h2]

theorem cum_lens_from_length (l : List (List Char)) :
    ∀ acc, (cum_lens_from acc l).length = l.length + 1 := by
  induction l with
  | nil => intro acc; simp [cum_lens_from]
  | cons c rest ih => intro acc; simp [cum_lens_from, ih]

theorem cum_lens_from_le (l : List (List Char)) :
    ∀ acc x, x ∈ cum_lens_from acc l → acc ≤ x := by
  induction l with
  | nil =>
    intro acc x hx
    simp [cum_lens_from] at hx
    omega
  | cons c rest ih =>
    intro acc x hx
    simp only [cum_lens_from, List.mem_cons] at hx
    rcases hx with rfl | hx
    · exact le_refl _
    · have hz := ih (acc + c.length) x hx
      omega

theorem cum_lens_from_pairwise (l : List (List Char)) :
    ∀ acc, List.Pairwise (· ≤ ·) (cum_lens_from acc l) := by
  induction l with
  | nil => intro acc; simp [cum_lens_from]
  | cons c rest ih =>
    intro acc
    simp only [cum_lens_from]
    refine List.Pairwise.cons ?_ (ih (acc + c.length))
    intro x hx
    have hz := cum_lens_from_le rest (acc + c.length) x hx
    omega

theorem cum_lens_mono (chunks : List (List Char)) (i j a b : Nat) (hij : i ≤ j)
    (ha : (cum_lens chunks).get? i = some a)
    (hb : (cum_lens chunks).get? j = some b) : a ≤ b := by
  rcases List.get?_eq_some.mp ha with ⟨hi, rfl⟩
  rcases List.get?_eq_some.mp hb with ⟨hj, rfl⟩
  rcases Nat.eq_or_lt_of_le hij with rfl | hlt
  · exact le_refl _
  · exact List.pairwise_iff_get.mp (cum_lens_from_pairwise chunks 0) ⟨i, hi⟩ ⟨j, hj⟩ hlt

theorem cum_lens_le_getLast (chunks : List (List Char)) (i a b : Nat)
    (ha : (cum_lens chunks).get? i = some a)
    (hb : (cum_lens chunks).getLast? = some b) : a ≤ b := by
  have hi : i < (cum_lens chunks).length := (List.get?_eq_some.mp ha).1
  have hne : cum_lens chunks ≠ [] := by
    intro he
    rw [he] at hi
    simp at hi
  rw [List.getLast?_eq_getElem?, ← List.get?_eq_getElem?] at hb
  exact cum_lens_mono chunks i ((cum_lens chunks).length - 1) a b (by omega) ha hb

theorem find_page_cons (p : Nat × Nat) (rest : List (Nat × Nat)) (pos : Nat) :
    find_page (p :: rest) pos =
      if pos ≤ p.2 then some p.1
      else if rest = [] then some p.1 else find_page rest pos := by
  cases p with
  | mk pno upto =>
    by_cases h : pos ≤ upto
    · simp [find_page, find_page_loop, h]
    · cases rest with
      | nil => simp [find_page, find_page_loop, h]
      | cons q qs =>
        cases hfl : find_page_loop (q :: qs) pos with
        | some r => simp [find_page, find_page_loop, h, hfl]
        | none => simp [find_page, find_page_loop, h, hfl, List.getLast?_cons_cons]

theorem find_page_mem (pm : List (Nat × Nat)) :
    ∀ pos p, find_page pm pos = some p → ∃ q ∈ pm, q.1 = p := by
  induction pm with
  | nil =>
    intro pos p h
    simp [find_page, find_page_loop] at h
  | cons a rest ih =>
    intro pos p h
    rw [find_page_cons] at h
    by_cases h1 : pos ≤ a.2
    · rw [if_pos h1] at h
      exact ⟨a, List.mem_cons_self _ _, Option.some.inj h⟩
    · rw [if_neg h1] at h
      by_cases h2 : rest = []
      · rw [if_pos h2] at h
        exact ⟨a, List.mem_cons_self _ _, Option.some.inj h⟩
      · rw [if_neg h2] at h
        rcases ih pos p h with ⟨q, hq, he⟩
        exact ⟨q, List.mem_cons_of_mem _ hq, he⟩

theorem find_page_mono (pm : List (Nat × Nat)) :
    List.Pairwise (fun a b => a.1 ≤ b.1) pm →
    ∀ pos pos' pa pb, pos ≤ pos' → find_page pm pos = some pa →
      find_page pm pos' = some pb → pa ≤ pb := by
  induction pm with
  | nil =>
    intro _ pos pos' pa pb _ ha _
    simp [find_page, find_page_loop] at ha
  | cons a rest ih =>
    intro hpm pos pos' pa pb hle ha hb
    have hhead : ∀ b ∈ rest, a.1 ≤ b.1 := (List.pairwise_cons.mp hpm).1
    have htail := (List.pairwise_cons.mp hpm).2
    rw [find_page_cons] at ha hb
    by_cases h1 : pos' ≤ a.2
    · rw [if_pos (le_trans hle h1)] at ha
      rw [if_pos h1] at hb
      rw [← Option.some.inj ha, ← Option.some.inj hb]
    · rw [if_neg h1] at hb
      by_cases h2 : rest = []
      · rw [if_pos h2] at hb
        by_cases h0 : pos ≤ a.2
        · rw [if_pos h0] at ha
          rw [← Option.some.inj ha, ← Option.some.inj hb]
        · rw [if_neg h0, if_pos h2] at ha
          rw [← Option.some.inj ha, ← Option.some.inj hb]
      · rw [if_neg h2] at hb
        by_cases h0 : pos ≤ a.2
        · rw [if_pos h0] at ha
          rcases find_page_mem rest pos' pb hb with ⟨q, hq, he⟩
          rw [← Option.some.inj ha, ← he]
          exact hhead q hq
        · rw [if_neg h0, if_neg h2] at ha
          exact ih htail pos pos' pa pb hle ha hb

theorem build_page_map_map_fst (pages : List (Nat × List Char)) :
    ∀ acc, (build_page_map pages acc).map Prod.fst = pages.map Prod.fst := by
  induction pages with
  | nil => intro acc; simp [build_page_map]
  | cons pq rest ih =>
    cases pq with
    | mk pno ptxt =>
      intro acc
      simp [build_page_map, ih]

theorem read_pdf_pages_fst_gt (texts : List (List Char)) :
    ∀ i q, q ∈ read_pdf_pages texts i → i < q.1 := by
  induction texts with
  | nil =>
    intro i q hq
    simp [read_pdf_pages] at hq
  | cons t rest ih =>
    intro i q hq
    simp only [read_pdf_pages, List.mem_cons] at hq
    rcases hq with rfl | hq
    · simp
    · have hz := ih (i + 1) q hq
      omega

theorem page_map_pairwise_fst (texts : List (List Char)) :
    ∀ i acc, List.Pairwise (fun a b => a.1 ≤ b.1)
      (build_page_map (read_pdf_pages texts i) acc) := by
  induction texts with
  | nil => intro i acc; simp [read_pdf_pages, build_page_map]
  | cons t rest ih =>
    intro i acc
    simp only [read_pdf_pages, build_page_map]
    refine List.pairwise_cons.mpr ⟨?_, ih (i + 1) _⟩
    intro q hq
    have hq2 : q.1 ∈ (build_page_map (read_pdf_pages rest (i + 1)) (acc + t.length)).map Prod.fst :=
      List.mem_map_of_mem _ hq
    rw [build_page_map_map_fst] at hq2
    rcases List.mem_map.mp hq2 with ⟨q2, hq2m, he⟩
    have hz := read_pdf_pages_fst_gt rest (i + 1) q2 hq2m
    show i + 1 ≤ q.1
    omega

theorem build_page_map_ne_nil (q : Nat × List Char) (qs : List (Nat × List Char)) (acc : Nat) :
    build_page_map (q :: qs) acc ≠ [] := by
  cases q
  simp [build_page_map]

theorem getLast?_cons_of_ne {α : Type} (a : α) (l : List α) (h : l ≠ []) :
    (a :: l).getLast? = l.getLast? := by
  cases l with
  | nil => exact absurd rfl h
  | cons b bs => exact List.getLast?_cons_cons

theorem build_page_map_getLast_snd (pages : List (Nat × List Char)) :
    ∀ acc, pages ≠ [] →
      ((build_page_map pages acc).getLast?).map Prod.snd =
        some (acc + (pages.map (fun pq => pq.2.length)).sum) := by
  induction pages with
  | nil => intro acc h; exact absurd rfl h
  | cons pq rest ih =>
    intro acc _
    cases pq with
    | mk pno ptxt =>
      cases rest with
      | nil => simp [build_page_map]
      | cons q qs =>
        have hstep : build_page_map ((pno, ptxt) :: q :: qs) acc
            = (pno, acc + ptxt.length) :: build_page_map (q :: qs) (acc + ptxt.length) := rfl
        rw [hstep, getLast?_cons_of_ne _ _ (build_page_map_ne_nil q qs _),
          ih (acc + ptxt.length) (by simp)]
        simp only [List.map_cons, List.sum_cons, Option.some.injEq]
        omega

theorem join_sep_length (sep : List Char) (texts : List (List Char)) :
    (join_sep sep texts).length =
      (texts.map List.length).sum + sep.length * (texts.length - 1) := by
  induction texts with
  | nil => simp [join_sep]
  | cons t rest ih =>
    cases rest with
    | nil => simp [join_sep]
    | cons u us =>
      have hstep : join_sep sep (t :: u :: us) = t ++ sep ++ join_sep sep (u :: us) := rfl
      rw [hstep]
      simp only [List.length_append, ih, List.map_cons, List.sum_cons, List.length_cons,
        Nat.add_sub_cancel]
      rw [Nat.mul_succ]
      generalize sep.length * us.length = m
      omega

theorem read_pdf_pages_map_snd (texts : List (List Char)) :
    ∀ i, (read_pdf_pages texts i).map Prod.snd = texts := by
  induction texts with
  | nil => intro i; simp [read_pdf_pages]
  | cons t rest ih => intro i; simp [read_pdf_pages, ih]

theorem read_pdf_pages_length (texts : List (List Char)) :
    ∀ i, (read_pdf_pages texts i).length = texts.length := by
  induction texts with
  | nil => intro i; simp [read_pdf_pages]
  | cons t rest ih => intro i; simp [read_pdf_pages, ih]

theorem attach_embeddings_aux_eq {α β : Type} (embs : List β) :
    ∀ (recs : List α) (i : Nat),
      attach_embeddings_aux embs recs i =
        if recs.length ≤ embs.length - i then some (recs.zip (embs.drop i)) else none := by
  intro recs
  induction recs with
  | nil => intro i; simp [attach_embeddings_aux]
  | cons r rest ih =>
    intro i
    by_cases h : (r :: rest).length ≤ embs.length - i
    · have hi : i < embs.length := by
        simp only [List.length_cons] at h
        omega
      have he : embs.get? i = some embs[i] := by
        rw [List.get?_eq_getElem?, List.getElem?_eq_getElem hi]
      rw [if_pos h]
      simp only [attach_embeddings_aux, he]
      rw [ih (i + 1),
        if_pos (by simp only [List.length_cons] at h; omega : rest.length ≤ embs.length - (i + 1))]
      rw [List.drop_eq_getElem_cons hi, List.zip_cons_cons]
      simp only [Option.map_some']
    · rw [if_neg h]
      by_cases hi : i < embs.length
      · have he : embs.get? i = some embs[i] := by
          rw [List.get?_eq_getElem?, List.getElem?_eq_getElem hi]
        simp only [attach_embeddings_aux, he]
        rw [ih (i + 1),
          if_neg (by simp only [List.length_cons] at h; omega : ¬ rest.length ≤ embs.length - (i + 1))]
        simp
      · have he : embs.get? i = none := List.get?_eq_none.mpr (by omega)
        simp only [attach_embeddings_aux]
        rw [List.get?_eq_getElem?] at he
        simp [he]

theorem stepOf_le (cs : Nat) (ov : Int) (hcs : 0 < cs) (hov0 : 0 ≤ ov) :
    stepOf cs ov ≤ cs := by
  unfold stepOf
  omega

theorem chunk_spans_length_eq (n cs : Nat) (ov : Int) :
    (chunk_spans n cs ov).length = (n + stepOf cs ov - 1) / stepOf cs ov := by
  have hz := spanLoop_length n cs (stepOf cs ov) (stepOf_pos cs ov) n 0 (by omega)
  simpa using hz

theorem chunk_text_mem_length (text : List Char) (cs : Nat) (ov : Int) (hcs : 0 < cs) :
    ∀ c ∈ chunk_text text cs ov, 1 ≤ c.length ∧ c.length ≤ cs := by
  intro c hc
  rcases List.mem_iff_get?.mp hc with ⟨i, hi⟩
  rw [chunk_text_get? text cs ov i] at hi
  by_cases h : i * stepOf cs ov < text.length
  · rw [if_pos h] at hi
    have he := Option.some.inj hi
    subst he
    rw [List.length_take, List.length_drop]
    omega
  · rw [if_neg h] at hi
    exact absurd hi (by simp)

theorem build_records_loop_mem (bn pn : String) (chunks : List (List Char))
    (cl : List Nat) (pm : List (Nat × Nat)) :
    ∀ (idxs : List Nat) (rs : List Record),
      build_records_loop bn pn chunks cl pm idxs = some rs →
      ∀ r ∈ rs, ∃ i ∈ idxs, build_record bn pn chunks cl pm i = some r := by
  intro idxs
  induction idxs with
  | nil =>
    intro rs h r hr
    simp only [build_records_loop] at h
    have h2 : [] = rs := by injection h
    subst h2
    exact absurd hr (List.not_mem_nil r)
  | cons i rest ih =>
    intro rs h r hr
    simp only [build_records_loop] at h
    cases hb : build_record bn pn chunks cl pm i with
    | none =>
      rw [hb] at h
      simp at h
    | some r0 =>
      cases hrest : build_records_loop bn pn chunks cl pm rest with
      | none =>
        rw [hb, hrest] at h
        simp at h
      | some rs0 =>
        rw [hb, hrest] at h
        have h2 : r0 :: rs0 = rs := by injection h
        subst h2
        rcases List.mem_cons.mp hr with rfl | hr2
        · exact ⟨i, List.mem_cons_self _ _, hb⟩
        · rcases ih rs0 hrest r hr2 with ⟨j, hj, hbr⟩
          exact ⟨j, List.mem_cons_of_mem _ hj, hbr⟩

theorem build_record_inv (bn pn : String) (chunks : List (List Char)) (cl : List Nat)
    (pm : List (Nat × Nat)) (i : Nat) (r : Record)
    (h : build_record bn pn chunks cl pm i = some r) :
    ∃ ps pe ch, approx_pages cl pm i i = some (ps, pe) ∧ chunks.get? i = some ch ∧
      r.pages = (ps, pe) ∧ r.text = ch := by
  unfold build_record at h
  cases hap : approx_pages cl pm i i with
  | none =>
    rw [hap] at h
    simp at h
  | some p =>
    cases p with
    | mk ps pe =>
      cases hch : chunks.get? i with
      | none =>
        rw [hap, hch] at h
        simp at h
      | some ch =>
        rw [hap, hch] at h
        have h2 := Option.some.inj h
        exact ⟨ps, pe, ch, rfl, rfl, by rw [← h2], by rw [← h2]⟩

theorem approx_pages_inv (cl : List Nat) (pm : List (Nat × Nat)) (si ei ps pe : Nat)
    (h : approx_pages cl pm si ei = some (ps, pe)) :
    ∃ sc ec, cl.get? si = some sc ∧
      (if ei + 1 < cl.length then cl.get? (ei + 1) else cl.getLast?) = some ec ∧
      find_page pm sc = some ps ∧ find_page pm ec = some pe := by
  unfold approx_pages at h
  cases hsc : cl.get? si with
  | none =>
    cases hec : (if ei + 1 < cl.length then cl.get? (ei + 1) else cl.getLast?) with
    | none =>
      simp only [hsc, hec] at h
      exact Option.noConfusion h
    | some ec =>
      simp only [hsc, hec] at h
      exact Option.noConfusion h
  | some sc =>
    cases hec : (if ei + 1 < cl.length then cl.get? (ei + 1) else cl.getLast?) with
    | none =>
      simp only [hsc, hec] at h
      exact Option.noConfusion h
    | some ec =>
      simp only [hsc, hec] at h
      cases hfs : find_page pm sc with
      | none =>
        cases hfe : find_page pm ec with
        | none =>
          simp only [hfs, hfe] at h
          exact Option.noConfusion h
        | some b =>
          simp only [hfs, hfe] at h
          exact Option.noConfusion h
      | some a =>
        cases hfe : find_page pm ec with
        | none =>
          simp only [hfs, hfe] at h
          exact Option.noConfusion h
        | some b =>
          simp only [hfs, hfe] at h
          have h2 := Option.some.inj h
          refine ⟨sc, ec, rfl, rfl, ?_, ?_⟩
          · rw [hfs, show a = ps from congrArg Prod.fst h2]
          · rw [hfe, show b = pe from congrArg Prod.snd h2]

theorem process_document_mem (stem pdf_name : String) (texts : List (List Char))
    (cs : Nat) (ov : Int) (rs : List Record)
    (h : process_document stem pdf_name texts cs ov = some rs) (r : Record) (hr : r ∈ rs) :
    ∃ i ps pe ch,
      approx_pages (cum_lens (chunk_text (join_sep ['\n', '\n'] texts) cs ov))
        (build_page_map (read_pdf_pages texts 0) 0) i i = some (ps, pe) ∧
      (chunk_text (join_sep ['\n', '\n'] texts) cs ov).get? i = some ch ∧
      r.pages = (ps, pe) ∧ r.text = ch := by
  simp only [process_document] at h
  split at h
  · have h2 : [] = rs := by injection h
    subst h2
    exact absurd hr (List.not_mem_nil r)
  · rw [read_pdf_pages_map_snd texts 0] at h
    rcases build_records_loop_mem _ _ _ _ _ _ _ h r hr with ⟨i, _, hbr⟩
    rcases build_record_inv _ _ _ _ _ _ _ hbr with ⟨ps, pe, ch, hap, hch, hpg, htx⟩
    exact ⟨i, ps, pe, ch, hap, hch, hpg, htx⟩

theorem build_page_map_snd_le (pages : List (Nat × List Char)) :
    ∀ acc q, q ∈ build_page_map pages acc → acc ≤ q.2 := by
  induction pages with
  | nil =>
    intro acc q hq
    simp [build_page_map] at hq
  | cons pq rest ih =>
    cases pq with
    | mk pno ptxt =>
      intro acc q hq
      simp only [build_page_map, List.mem_cons] at hq
      rcases hq with rfl | hq
      · simp
      · have hz := ih (acc + ptxt.length) q hq
        omega

theorem build_page_map_pairwise_snd (pages : List (Nat × List Char)) :
    ∀ acc, List.Pairwise (fun a b => a.2 ≤ b.2) (build_page_map pages acc) := by
  induction pages with
  | nil => intro acc; simp [build_page_map]
  | cons pq rest ih =>
    cases pq with
    | mk pno ptxt =>
      intro acc
      simp only [build_page_map]
      refine List.pairwise_cons.mpr ⟨?_, ih (acc + ptxt.length)⟩
      intro q hq
      have hz := build_page_map_snd_le rest (acc + ptxt.length) q hq
      show acc + ptxt.length ≤ q.2
      omega

theorem find_page_loop_eq_find? (pm : List (Nat × Nat)) (pos : Nat) :
    find_page_loop pm pos = (pm.find? (fun e => decide (pos ≤ e.2))).map Prod.fst := by
  induction pm with
  | nil => simp [find_page_loop]
  | cons p rest ih =>
    cases p with
    | mk pno upto =>
      by_cases h : pos ≤ upto
      · simp [find_page_loop, List.find?_cons, h]
      · simp [find_page_loop, List.find?_cons, h, ih]


/-! ## Claim theorems -/

/-- C6: for every text of length L, every chunk_size > 0 and every overlap
with 0 ≤ overlap < chunk_size, the chunk spans cover [0, L) with no gaps
(their union is exactly [0, L)), each chunk's length is ≤ chunk_size, the
chunks of chunk_text are exactly the substrings at those spans, and the empty
text yields an empty sequence. -/
theorem chunk_coverage (text : List Char) (cs : Nat) (ov : Int)
    (hcs : 0 < cs) (hov0 : 0 ≤ ov) (hov : ov < (cs : Int)) :
    (∀ p : Nat,
      (∃ s ∈ chunk_spans text.length cs ov, s.1 ≤ p ∧ p < s.2) ↔ p < text.length)
    ∧ (∀ c ∈ chunk_text text cs ov, c.length ≤ cs)
    ∧ (∀ i, (chunk_text text cs ov).get? i =
        ((chunk_spans text.length cs ov).get? i).map
          (fun s => (text.drop s.1).take (s.2 - s.1)))
    ∧ chunk_text ([] : List Char) cs ov = [] := by
  have hstep := stepOf_pos cs ov
  have hsle := stepOf_le cs ov hcs hov0
  refine ⟨?_, ?_, ?_, rfl⟩
  · intro p
    constructor
    · rintro ⟨s, hs, h1, h2⟩
      rcases s with ⟨s1, s2⟩
      rcases List.mem_iff_get?.mp hs with ⟨i, hi⟩
      rw [chunk_spans_get? text.length cs ov i] at hi
      by_cases hc : i * stepOf cs ov < text.length
      · rw [if_pos hc] at hi
        have he := Option.some.inj hi
        have he2 : min text.length (i * stepOf cs ov + cs) = s2 :=
          congrArg Prod.snd he
        omega
      · rw [if_neg hc] at hi
        exact absurd hi (by simp)
    · intro hp
      have hq : p / stepOf cs ov * stepOf cs ov ≤ p := Nat.div_mul_le_self p _
      have hc : p / stepOf cs ov * stepOf cs ov < text.length := lt_of_le_of_lt hq hp
      have hget := chunk_spans_get? text.length cs ov (p / stepOf cs ov)
      rw [if_pos hc] at hget
      refine ⟨_, List.get?_mem hget, hq, ?_⟩
      have h1 : stepOf cs ov * (p / stepOf cs ov) + p % stepOf cs ov = p :=
        Nat.div_add_mod p _
      have h2 : p % stepOf cs ov < stepOf cs ov := Nat.mod_lt p hstep
      have h3 : p / stepOf cs ov * stepOf cs ov = stepOf cs ov * (p / stepOf cs ov) :=
        Nat.mul_comm _ _
      show p < min text.length (p / stepOf cs ov * stepOf cs ov + cs)
      omega
  · intro c hc
    exact (chunk_text_mem_length text cs ov hcs c hc).2
  · intro i
    rw [chunk_text_get? text cs ov i, chunk_spans_get? text.length cs ov i]
    by_cases hc : i * stepOf cs ov < text.length
    · rw [if_pos hc, if_pos hc]
      simp only [Option.map_some']
      have he : (text.drop (i * stepOf cs ov)).take cs
          = (text.drop (i * stepOf cs ov)).take
              (min text.length (i * stepOf cs ov + cs) - i * stepOf cs ov) := by
        apply List.take_eq_take.mpr
        rw [List.length_drop]
        omega
      rw [← he]
    · rw [if_neg hc, if_neg hc]
      rfl

/-- Witness for C6 at text "abcde", chunk_size 3, overlap 1. -/
theorem chunk_coverage_witness :
    0 < 3 ∧ (0 : Int) ≤ 1 ∧ (1 : Int) < ((3 : Nat) : Int) ∧
    ((∀ p : Nat,
        (∃ s ∈ chunk_spans ("abcde".toList).length 3 1, s.1 ≤ p ∧ p < s.2)
          ↔ p < ("abcde".toList).length)
      ∧ (∀ c ∈ chunk_text ("abcde".toList) 3 1, c.length ≤ 3)
      ∧ (∀ i, (chunk_text ("abcde".toList) 3 1).get? i =
          ((chunk_spans ("abcde".toList).length 3 1).get? i).map
            (fun s => (("abcde".toList).drop s.1).take (s.2 - s.1)))
      ∧ chunk_text ([] : List Char) 3 1 = []) :=
  ⟨by decide, by decide, by decide,
    chunk_coverage ("abcde".toList) 3 1 (by decide) (by decide) (by decide)⟩

/-- C7: consecutive chunks i and i+1 have start offsets differing by exactly
step = max(1, chunk_size − overlap), every chunk i starts at offset i × step,
and there is one span per chunk of chunk_text. -/
theorem chunk_overlap_stride (text : List Char) (cs : Nat) (ov : Int) (hcs : 0 < cs) :
    (∀ i si sj, (chunk_spans text.length cs ov).get? i = some si →
        (chunk_spans text.length cs ov).get? (i + 1) = some sj →
        sj.1 - si.1 = stepOf cs ov ∧ sj.1 = si.1 + stepOf cs ov)
    ∧ (∀ i s, (chunk_spans text.length cs ov).get? i = some s → s.1 = i * stepOf cs ov)
    ∧ (chunk_spans text.length cs ov).length = (chunk_text text cs ov).length := by
  refine ⟨?_, ?_, ?_⟩
  · intro i si sj hi hj
    rw [chunk_spans_get? text.length cs ov i] at hi
    rw [chunk_spans_get? text.length cs ov (i + 1)] at hj
    by_cases hc : i * stepOf cs ov < text.length
    · by_cases hc2 : (i + 1) * stepOf cs ov < text.length
      · rw [if_pos hc] at hi
        rw [if_pos hc2] at hj
        rcases si with ⟨a, b⟩
        rcases sj with ⟨a2, b2⟩
        have h1 : i * stepOf cs ov = a := congrArg Prod.fst (Option.some.inj hi)
        have h2 : (i + 1) * stepOf cs ov = a2 := congrArg Prod.fst (Option.some.inj hj)
        have he : (i + 1) * stepOf cs ov = i * stepOf cs ov + stepOf cs ov := by ring
        constructor
        · show a2 - a = stepOf cs ov
          omega
        · show a2 = a + stepOf cs ov
          omega
      · rw [if_neg hc2] at hj
        exact absurd hj (by simp)
    · rw [if_neg hc] at hi
      exact absurd hi (by simp)
  · intro i s hs
    rw [chunk_spans_get? text.length cs ov i] at hs
    by_cases hc : i * stepOf cs ov < text.length
    · rw [if_pos hc] at hs
      rcases s with ⟨a, b⟩
      have h1 : i * stepOf cs ov = a := congrArg Prod.fst (Option.some.inj hs)
      show a = i * stepOf cs ov
      omega
    · rw [if_neg hc] at hs
      exact absurd hs (by simp)
  · rw [chunk_spans_length_eq, chunk_text_length_eq]

/-- Witness for C7 at text "ab", chunk_size 2, overlap 1. -/
theorem chunk_overlap_stride_witness :
    0 < 2 ∧
    ((∀ i si sj, (chunk_spans ("ab".toList).length 2 1).get? i = some si →
        (chunk_spans ("ab".toList).length 2 1).get? (i + 1) = some sj →
        sj.1 - si.1 = stepOf 2 1 ∧ sj.1 = si.1 + stepOf 2 1)
      ∧ (∀ i s, (chunk_spans ("ab".toList).length 2 1).get? i = some s →
          s.1 = i * stepOf 2 1)
      ∧ (chunk_spans ("ab".toList).length 2 1).length
          = (chunk_text ("ab".toList) 2 1).length) :=
  ⟨by decide, chunk_overlap_stride ("ab".toList) 2 1 (by decide)⟩

/-- C8: chunk_text terminates for every input: for every text, chunk_size > 0
and arbitrary integer overlap (including overlap ≥ chunk_size), the step floor
gives step ≥ 1, the loop produces a finite list of exactly
⌈L / step⌉ chunks, and running the loop with any fuel ≥ L gives the same
result (the loop stops because start reaches L, not because fuel runs out). -/
theorem chunk_text_terminates (text : List Char) (cs : Nat) (ov : Int) (hcs : 0 < cs) :
    1 ≤ stepOf cs ov
    ∧ (chunk_text text cs ov).length = (text.length + stepOf cs ov - 1) / stepOf cs ov
    ∧ ∀ fuel, text.length ≤ fuel →
        chunkLoop text cs (stepOf cs ov) 0 fuel = chunk_text text cs ov := by
  refine ⟨stepOf_pos cs ov, chunk_text_length_eq text cs ov, ?_⟩
  intro fuel hf
  exact chunkLoop_fuel_free text cs (stepOf cs ov) (stepOf_pos cs ov) fuel text.length 0
    (by omega) (by omega)

/-- Witness for C8 at text "abc" with the misconfigured overlap 5 > chunk_size 2. -/
theorem chunk_text_terminates_witness :
    0 < 2 ∧
    (1 ≤ stepOf 2 5
      ∧ (chunk_text ("abc".toList) 2 5).length
          = (("abc".toList).length + stepOf 2 5 - 1) / stepOf 2 5
      ∧ ∀ fuel, ("abc".toList).length ≤ fuel →
          chunkLoop ("abc".toList) 2 (stepOf 2 5) 0 fuel = chunk_text ("abc".toList) 2 5) :=
  ⟨by decide, chunk_text_terminates ("abc".toList) 2 5 (by decide)⟩

set_option maxRecDepth 10000 in
/-- C9: find_page returns the first page (in page order) whose cumulative
end-offset is ≥ the queried position, and the last page's number when the
position exceeds every cumulative offset; on the map with cumulative values
[100, 300, 350] (built from pages of lengths 100, 200, 50), position 250 maps
to page 2, position 350 to page 3 and position 0 to page 1. -/
theorem find_page_first_match (pm : List (Nat × Nat)) (pos : Nat) (h : pm ≠ []) :
    find_page pm pos =
      some (((pm.find? (fun e => decide (pos ≤ e.2))).map Prod.fst).getD (pm.getLast h).1)
    ∧ build_page_map (read_pdf_pages
        [List.replicate 100 'a', List.replicate 200 'b', List.replicate 50 'c'] 0) 0
        = [(1, 100), (2, 300), (3, 350)]
    ∧ find_page [(1, 100), (2, 300), (3, 350)] 250 = some 2
    ∧ find_page [(1, 100), (2, 300), (3, 350)] 350 = some 3
    ∧ find_page [(1, 100), (2, 300), (3, 350)] 0 = some 1 := by
  refine ⟨?_, by decide, by decide, by decide, by decide⟩
  unfold find_page
  rw [find_page_loop_eq_find? pm pos]
  cases hf : pm.find? (fun e => decide (pos ≤ e.2)) with
  | some q => simp
  | none =>
    rw [List.getLast?_eq_getLast_of_ne_nil h]
    simp

set_option maxRecDepth 10000 in
/-- Witness for C9 at the concrete map [100, 300, 350] and position 250. -/
theorem find_page_first_match_witness :
    ([(1, 100), (2, 300), (3, 350)] : List (Nat × Nat)) ≠ [] ∧
    (find_page [(1, 100), (2, 300), (3, 350)] 250 =
      some ((([(1, 100), (2, 300), (3, 350)].find?
          (fun e => decide (250 ≤ e.2))).map Prod.fst).getD
        (([(1, 100), (2, 300), (3, 350)] : List (Nat × Nat)).getLast (by decide)).1)
      ∧ build_page_map (read_pdf_pages
          [List.replicate 100 'a', List.replicate 200 'b', List.replicate 50 'c'] 0) 0
          = [(1, 100), (2, 300), (3, 350)]
      ∧ find_page [(1, 100), (2, 300), (3, 350)] 250 = some 2
      ∧ find_page [(1, 100), (2, 300), (3, 350)] 350 = some 3
      ∧ find_page [(1, 100), (2, 300), (3, 350)] 0 = some 1) :=
  ⟨by decide, find_page_first_match [(1, 100), (2, 300), (3, 350)] 250 (by decide)⟩

/-- C10: every chunk returned by chunk_text is non-empty (each window starts
below the text's length, so its length is ≥ 1), and consequently every
record's text field in the output is non-empty. -/
theorem chunk_text_chunks_nonempty (text : List Char) (cs : Nat) (ov : Int) (hcs : 0 < cs) :
    (∀ c ∈ chunk_text text cs ov, 1 ≤ c.length)
    ∧ (∀ (stem pdf_name : String) (texts : List (List Char)) (rs : List Record),
        process_document stem pdf_name texts cs ov = some rs →
        ∀ r ∈ rs, 1 ≤ r.text.length) := by
  constructor
  · intro c hc
    exact (chunk_text_mem_length text cs ov hcs c hc).1
  · intro stem pdf_name texts rs h r hr
    rcases process_document_mem stem pdf_name texts cs ov rs h r hr with
      ⟨i, ps, pe, ch, hap, hch, hpg, htx⟩
    have hmem : ch ∈ chunk_text (join_sep ['\n', '\n'] texts) cs ov := List.get?_mem hch
    have hz := (chunk_text_mem_length _ cs ov hcs ch hmem).1
    rw [htx]
    exact hz

/-- Witness for C10 at text "x", chunk_size 1, overlap 0. -/
theorem chunk_text_chunks_nonempty_witness :
    0 < 1 ∧
    ((∀ c ∈ chunk_text ("x".toList) 1 0, 1 ≤ c.length)
      ∧ (∀ (stem pdf_name : String) (texts : List (List Char)) (rs : List Record),
          process_document stem pdf_name texts 1 0 = some rs →
          ∀ r ∈ rs, 1 ≤ r.text.length)) :=
  ⟨by decide, chunk_text_chunks_nonempty ("x".toList) 1 0 (by decide)⟩

/-- C1 as stated is false on the code: for the two-page document with page
texts "a" and "b" the single chunk's record has pages (1, 2), so end_page
differs from start_page (the end position cum_lens[i + 1] is looked up, not the
start position again). -/
theorem record_pages_equal_cex :
    (process_document "B" "B.pdf" [['a'], ['b']] CHUNK_SIZE CHUNK_OVERLAP).map
      (fun rs => rs.map Record.pages) = some [(1, 2)]
    ∧ (1 : Nat) ≠ 2 := by decide

/-- C1 amended: the pages pair is derived from cum_lens[i] (start page) and
cum_lens[i + 1] (end page), not from the start offset alone; the two can
differ, and always satisfy start_page ≤ end_page. -/
theorem record_pages_start_le_end (stem pdf_name : String) (texts : List (List Char))
    (cs : Nat) (ov : Int) (rs : List Record)
    (h : process_document stem pdf_name texts cs ov = some rs) :
    ∀ r ∈ rs, r.pages.1 ≤ r.pages.2 := by
  intro r hr
  rcases process_document_mem stem pdf_name texts cs ov rs h r hr with
    ⟨i, ps, pe, ch, hap, hch, hpg, htx⟩
  rcases approx_pages_inv _ _ _ _ _ _ hap with ⟨sc, ec, hsc, hec, hfs, hfe⟩
  have hscec : sc ≤ ec := by
    by_cases hlt : i + 1 < (cum_lens (chunk_text (join_sep ['\n', '\n'] texts) cs ov)).length
    · rw [if_pos hlt] at hec
      exact cum_lens_mono _ i (i + 1) sc ec (by omega) hsc hec
    · rw [if_neg hlt] at hec
      exact cum_lens_le_getLast _ i sc ec hsc hec
  have hmono := find_page_mono _ (page_map_pairwise_fst texts 0 0) sc ec ps pe hscec hfs hfe
  rw [hpg]
  exact hmono

/-- Witness for the amended C1 at the two-page document with texts "a", "b". -/
theorem record_pages_start_le_end_witness :
    process_document "B" "B.pdf" [['a'], ['b']] CHUNK_SIZE CHUNK_OVERLAP =
      some [{ id := "B__chunk_0", book := "B", chunk_id := 0,
              text := ['a', '\n', '\n', 'b'], pages := (1, 2),
              source := "B.pdf#pp.1-2" }]
    ∧ ∀ r ∈ [({ id := "B__chunk_0", book := "B", chunk_id := 0,
                text := ['a', '\n', '\n', 'b'], pages := (1, 2),
                source := "B.pdf#pp.1-2" } : Record)], r.pages.1 ≤ r.pages.2 :=
  ⟨by decide,
    record_pages_start_le_end "B" "B.pdf" [['a'], ['b']] CHUNK_SIZE CHUNK_OVERLAP _ (by decide)⟩

/-- C2 as stated is false on the code: for pages "a" and "" the cumulative
counts are [1, 1] — not strictly increasing — and the final count 1 differs
from the "\n\n"-joined text's length 3 handed to the chunker (the page map is
built from the pages joined WITHOUT the separator). -/
theorem page_map_final_count_cex :
    build_page_map (read_pdf_pages [['a'], ([] : List Char)] 0) 0 = [(1, 1), (2, 1)]
    ∧ (join_sep ['\n', '\n'] [['a'], ([] : List Char)]).length = 3
    ∧ (1 : Nat) ≠ 3 := by decide

/-- C2 amended: the page map's cumulative counts are non-decreasing in page
order, and the final entry's count equals the total length of the page texts
alone, which falls short of the "\n\n"-joined text handed to the chunker by
2 × (number of pages − 1) separator characters. -/
theorem page_map_invariant (texts : List (List Char)) :
    List.Pairwise (fun a b => a.2 ≤ b.2) (build_page_map (read_pdf_pages texts 0) 0)
    ∧ (((build_page_map (read_pdf_pages texts 0) 0).getLast?).map Prod.snd).getD 0
        + 2 * (texts.length - 1)
      = (join_sep ['\n', '\n'] texts).length := by
  refine ⟨build_page_map_pairwise_snd _ 0, ?_⟩
  cases texts with
  | nil => rfl
  | cons t rest =>
    have hne : read_pdf_pages (t :: rest) 0 ≠ [] := by simp [read_pdf_pages]
    rw [build_page_map_getLast_snd (read_pdf_pages (t :: rest) 0) 0 hne, join_sep_length]
    have hmap : (read_pdf_pages (t :: rest) 0).map (fun pq => pq.2.length)
        = (t :: rest).map List.length := by
      have h1 : (fun pq : Nat × List Char => pq.2.length)
          = List.length ∘ (Prod.snd : Nat × List Char → List Char) := rfl
      rw [h1, ← List.map_map, read_pdf_pages_map_snd]
    rw [hmap]
    simp only [Option.getD_some, List.length_cons, Nat.add_sub_cancel]
    show 0 + ((t :: rest).map List.length).sum + 2 * rest.length
        = ((t :: rest).map List.length).sum + (['\n', '\n'] : List Char).length * rest.length
    simp only [List.length_cons, List.length_nil]
    omega

set_option maxRecDepth 10000 in
/-- C3: the position approx_pages looks up for a chunk is the running sum of
the previous chunks' lengths, not the chunk's own start offset i × step: with
chunk_size 12 and overlap 2 (step 10) on the two-page document with texts of
lengths 11 and 2, cum_lens is [0, 12, 17], chunk 1's record gets start page 2
from position 12, while the chunk's true start offset 1 × 10 = 10 lies on
page 1 (its comment calls cum_lens "start offsets", which they are not). -/
theorem approx_start_position_eval :
    cum_lens (chunk_text
        (join_sep ['\n', '\n'] [List.replicate 11 'a', List.replicate 2 'b']) 12 2)
      = [0, 12, 17]
    ∧ stepOf 12 2 = 10
    ∧ (12 : Nat) ≠ 1 * 10
    ∧ (process_document "B" "B.pdf" [List.replicate 11 'a', List.replicate 2 'b'] 12 2).map
        (fun rs => rs.map Record.pages) = some [(1, 2), (2, 2)]
    ∧ find_page
        (build_page_map (read_pdf_pages [List.replicate 11 'a', List.replicate 2 'b'] 0) 0)
        (1 * stepOf 12 2) = some 1 := by decide

set_option maxRecDepth 40000 in
/-- C4 as stated is false on the code: the two page texts are joined with
"\n\n", so the concatenated text has 1502 characters, not 1500, and chunk 1
spans [1000, 1502). -/
theorem scenario_text_length_cex :
    (join_sep ['\n', '\n'] [List.replicate 1000 'a', List.replicate 500 'b']).length = 1502
    ∧ chunk_spans 1502 1200 200 = [(0, 1200), (1000, 1502)]
    ∧ (1502 : Nat) ≠ 1500 := by decide

set_option maxRecDepth 40000 in
/-- C4 amended: the "Alpha Beta.pdf" scenario yields exactly 2 chunks over a
1502-character concatenated text (1500 page characters plus one 2-character
separator): chunk 0 spans [0, 1200), chunk 1 spans [1000, 1502) (length 502),
and the records carry ids "Alpha Beta__chunk_0" and "Alpha Beta__chunk_1". -/
theorem scenario_two_chunks :
    (process_document "Alpha Beta" "Alpha Beta.pdf"
        [List.replicate 1000 'a', List.replicate 500 'b'] CHUNK_SIZE CHUNK_OVERLAP).map
      (fun rs => (rs.map Record.id, rs.map (fun r => r.text.length)))
      = some (["Alpha Beta__chunk_0", "Alpha Beta__chunk_1"], [1200, 502])
    ∧ chunk_spans 1502 CHUNK_SIZE CHUNK_OVERLAP = [(0, 1200), (1000, 1502)]
    ∧ (join_sep ['\n', '\n'] [List.replicate 1000 'a', List.replicate 500 'b']).length = 1502
    ∧ book_name_of_stem "Alpha Beta" = "Alpha Beta" := by decide

/-- C5 as stated is false on the code: with 1 record and 2 vectors (more
vectors than records) the attachment step succeeds silently — pairing the
record with the first vector — instead of aborting. -/
theorem embedding_surplus_cex :
    attach_embeddings [(0 : Nat)] [(10 : Nat), 20] = some [(0, 10)]
    ∧ (1 : Nat) ≠ 2 := by decide

/-- C5 amended: the attachment step aborts (uncaught IndexError, modelled as
none) exactly when the embedding collaborator returns FEWER vectors than
records; surplus vectors are silently ignored, and on success order is
preserved: record i is paired with vector i. -/
theorem embedding_mismatch_behaviour {α β : Type} (records : List α) (embs : List β) :
    attach_embeddings records embs =
      if records.length ≤ embs.length then some (records.zip embs) else none := by
  unfold attach_embeddings
  rw [attach_embeddings_aux_eq]
  simp
